import Mathlib

/-!
Shallow embedding of the analytical engine of the supermarket-transactions
repository (backend/app/analytics): the pairwise association-rule miner
(`recommender.py`), the process-wide rule cache, the per-customer
recommendation lookup, the data repository refresh (`ingestion.py`), and the
IQR outlier filter of the customer segmentation (`segmentation.py`).

Modelling conventions:
- product codes and customer ids are `ℕ`; a transaction row is the pair
  (customer, list of product codes obtained by splitting the `products`
  column);
- Python float arithmetic is embedded as exact `ℚ` arithmetic;
- the category-label fields attached to each rule (`antecedent_category`,
  `consequent_category`) are pure display metadata looked up per side and are
  omitted from the `Rule` record;
- a raised Python exception is embedded as `Option`/`Except`/an error flag.
-/

/-! ### Generic insertion sort (model of Python `sorted`) -/

def insertBy {α : Type} (le : α → α → Bool) (a : α) : List α → List α
  | [] => [a]
  | b :: l => if le a b then a :: b :: l else b :: insertBy le a l

def sortBy {α : Type} (le : α → α → Bool) : List α → List α
  | [] => []
  | a :: l => insertBy le a (sortBy le l)

/-! ### Association-rule mining: `recommender.build_association_rules`

The source keeps `MIN_SUPPORT`/`MIN_CONFIDENCE` as module constants; the
embedding passes them as the first two arguments so that statements can also
be instantiated at the spec's worked example (0.34 / 0.5). -/

def MIN_SUPPORT : ℚ := 1/100

def MIN_CONFIDENCE : ℚ := 3/10

structure Rule where
  antecedent : ℕ
  consequent : ℕ
  support : ℚ
  confidence : ℚ
  lift : ℚ
deriving DecidableEq, Repr

/-- `item_counts[i]`: the loop `for t in trans_lists: for item in set(t):
item_counts[item] += 1` increments the counter for `i` once per transaction
whose (deduplicated) item set contains `i`. -/
def item_counts (txs : List (List ℕ)) (i : ℕ) : ℕ :=
  txs.countP (fun t => decide (i ∈ t))

/-- `pair_counts[(a,b)]`: one increment per transaction whose deduplicated
item set contains both `a` and `b` (each unordered pair is enumerated once
per transaction by `combinations(sorted(set(t)), 2)`). -/
def pair_counts (txs : List (List ℕ)) (a b : ℕ) : ℕ :=
  txs.countP (fun t => decide (a ∈ t) && decide (b ∈ t))

/-- `itertools.combinations(l, 2)`: all pairs of elements of `l` in index
order. -/
def combos2 : List ℕ → List (ℕ × ℕ)
  | [] => []
  | a :: l => (l.map (fun b => (a, b))) ++ combos2 l

/-- Python `sorted(set(t))`: the distinct elements of `t` in increasing
order. -/
def sorted_set (t : List ℕ) : List ℕ :=
  sortBy (fun a b => decide (a ≤ b)) t.dedup

/-- The canonical (lexicographically ordered) product pairs of one
transaction. -/
def tx_pairs (t : List ℕ) : List (ℕ × ℕ) :=
  combos2 (sorted_set t)

/-- The key set of the `pair_counts` counter: every canonical pair occurring
in at least one transaction, listed once. -/
def all_pairs (txs : List (List ℕ)) : List (ℕ × ℕ) :=
  (txs.flatMap tx_pairs).dedup

/-- The key set of the `item_counts` counter. -/
def all_items (txs : List (List ℕ)) : List ℕ :=
  (txs.flatMap List.dedup).dedup

/-- The directional rule `a → b` with the metrics computed in the loop body of
`build_association_rules`:
`support_ab = c_ab / total`, `conf_ab = c_ab / item_counts[a]`,
`lift_ab = conf_ab / support_b` with `support_b = item_counts[b] / total`.
`pair_counts` is symmetric in its two arguments, so instantiating at `(b, a)`
yields exactly the source's `b → a` rule (whose `support` field is the shared
`support_ab`). -/
def ruleOf (txs : List (List ℕ)) (a b : ℕ) : Rule :=
  { antecedent := a
    consequent := b
    support := (pair_counts txs a b : ℚ) / (txs.length : ℚ)
    confidence := (pair_counts txs a b : ℚ) / (item_counts txs a : ℚ)
    lift := ((pair_counts txs a b : ℚ) / (item_counts txs a : ℚ))
      / ((item_counts txs b : ℚ) / (txs.length : ℚ)) }

/-- Loop body of `build_association_rules` for one canonical pair `(a, b)`:
skip the pair when `support_ab < MIN_SUPPORT` (`continue`), otherwise emit the
`a → b` rule when `conf_ab >= MIN_CONFIDENCE` and the `b → a` rule when
`conf_ba >= MIN_CONFIDENCE`. -/
def candidate_rules (min_support min_confidence : ℚ) (txs : List (List ℕ))
    (p : ℕ × ℕ) : List Rule :=
  if (pair_counts txs p.1 p.2 : ℚ) / (txs.length : ℚ) < min_support then []
  else
    (if min_confidence ≤ (ruleOf txs p.1 p.2).confidence
      then [ruleOf txs p.1 p.2] else []) ++
    (if min_confidence ≤ (ruleOf txs p.2 p.1).confidence
      then [ruleOf txs p.2 p.1] else [])

/-- The full retained rule list (`rules` before the final `sorted` call). -/
def retained_rules (min_support min_confidence : ℚ) (txs : List (List ℕ)) :
    List Rule :=
  (all_pairs txs).flatMap (candidate_rules min_support min_confidence txs)

/-- `sorted(rules, key=lambda r: r['lift'], reverse=True)`. -/
def sort_rules (l : List Rule) : List Rule :=
  sortBy (fun r s => decide (s.lift ≤ r.lift)) l

structure RulesResult where
  rules : List Rule
  frequent_items : List (ℕ × ℕ)
deriving DecidableEq, Repr

/-- `build_association_rules` over the per-row product lists
(`tx['products'].astype(str).str.split().tolist()`). -/
def build_association_rules (min_support min_confidence : ℚ)
    (txs : List (List ℕ)) : RulesResult :=
  { rules := sort_rules (retained_rules min_support min_confidence txs)
    frequent_items :=
      ((all_items txs).map (fun i => (i, item_counts txs i))).filter
        (fun p => decide (min_support ≤ (p.2 : ℚ) / (txs.length : ℚ))) }

/-! ### Process-wide rule cache: `get_rules` and the repository refresh

`recommender._cached_rules` is a module-level dict, empty (falsy) until first
use; `build_association_rules` always returns a dict with the two keys
`rules`/`frequent_items`, which is truthy, so the cache state is exactly an
`Option RulesResult`.  The transaction table it is computed from is
`repo.data.transactions`; the relevant view is the per-row (customer,
product list) pair. -/

structure RecState where
  transactions : List (ℕ × List ℕ)
  cached_rules : Option RulesResult
deriving DecidableEq

/-- `get_rules()`: return the cached result when the cache dict is non-empty,
otherwise compute `build_association_rules()` (over the current transactions,
with the module constants) and store it. -/
def get_rules (s : RecState) : RulesResult × RecState :=
  match s.cached_rules with
  | some r => (r, s)
  | none =>
      let r := build_association_rules MIN_SUPPORT MIN_CONFIDENCE
        (s.transactions.map (fun t => t.2))
      (r, { s with cached_rules := some r })

/-- `DataRepository.refresh()` as seen by the recommender module: it reloads
`repo._data` (here: replaces the transaction table) and resets the
repository's own three memoized fields; the module-level global
`recommender._cached_rules` lives in a different module and is not touched by
it. -/
def refresh_transactions (newTxs : List (ℕ × List ℕ)) (s : RecState) :
    RecState :=
  { transactions := newTxs, cached_rules := s.cached_rules }

/-! ### Per-customer recommendations: `recommend_for_customer` -/

/-- The per-row product lists of one customer
(`tx[tx['customer'] == customer_id]['products'].astype(str).str.split()`). -/
def cust_lists (txs : List (ℕ × List ℕ)) (cid : ℕ) : List (List ℕ) :=
  (txs.filter (fun t => t.1 == cid)).map (fun t => t.2)

/-- The `owned` set, as the concatenated purchase history (`.sum()` on a
non-empty series of lists concatenates them; membership in the Python `set`
of it is membership in the concatenation). -/
def owned_products (txs : List (ℕ × List ℕ)) (cid : ℕ) : List ℕ :=
  (cust_lists txs cid).flatten

/-- The `scored` list: rules whose antecedent is owned and whose consequent is
not. -/
def scored_rules (rules : List Rule) (owned : List ℕ) : List Rule :=
  rules.filter (fun r =>
    decide (r.antecedent ∈ owned) && !(decide (r.consequent ∈ owned)))

/-- One iteration of the `best_by_consequent` loop: the dict keyed by
consequent is an insertion-ordered list of its values; a later rule with an
already-present consequent replaces the stored one exactly when its lift is
strictly larger (`r['lift'] > best_by_consequent[c]['lift']`). -/
def upd_best (acc : List Rule) (r : Rule) : List Rule :=
  if acc.any (fun s => s.consequent == r.consequent) then
    acc.map (fun s =>
      if s.consequent == r.consequent && decide (s.lift < r.lift)
        then r else s)
  else acc ++ [r]

/-- `best_by_consequent.values()` after the dedup loop over `scored`. -/
def best_by_consequent (scored : List Rule) : List Rule :=
  scored.foldl upd_best []

/-- `recommend_for_customer(customer_id, top_n)` on the current state.  When
the customer matches no transaction row, `pandas.Series.sum()` on the empty
series of product lists returns the integer `0`, and `set(0)` raises
`TypeError`; the raised exception is embedded as `none`.  Otherwise the
result is the recommendation list (the returned dict's `recommendations`
entry).  The caching side effect of the inner `get_rules()` call does not
affect the returned value and is dropped. -/
def recommend_for_customer (s : RecState) (cid : ℕ) (top_n : ℕ) :
    Option (List Rule) :=
  let lists := cust_lists s.transactions cid
  if lists.isEmpty then none
  else
    let rules := (get_rules s).1.rules
    some ((sort_rules (best_by_consequent
      (scored_rules rules lists.flatten))).take top_n)

/-! ### Customer feature vectors and the data repository -/

structure FeatureVec where
  frequency : ℚ
  total_items : ℚ
  distinct_products : ℚ
  distinct_categories : ℚ
  avg_basket_size : ℚ
deriving DecidableEq, Repr

/-- The loaded dataset (`LoadedData`).  Of its five fields only the
transaction table is consumed by the claims; the catalog tables, the exploded
view and the product-to-category dict are further pure views replaced by the
same assignment. -/
structure LoadedData where
  transactions : List (ℕ × List ℕ)
deriving DecidableEq

/-- `DataRepository`: the loaded data plus the three memoized derived views
(`_customer_features`, `_category_counts`, `_product_counts`), each `None`
until first access. -/
structure DataRepository where
  data : Option LoadedData
  customer_features : Option (List (ℕ × FeatureVec))
  category_counts : Option (List (ℕ × ℕ))
  product_counts : Option (List (ℕ × ℕ))
deriving DecidableEq

/-- `DataRepository.refresh()`: the method body is the four assignments
`self._data = load_all(...)`, then the three cache fields to `None`.  The
right-hand side of the first assignment is evaluated before anything is
mutated, so a raising `load_all` leaves every field as it was and propagates
the exception (second component) to the caller; a successful load replaces
the state wholesale. -/
def DataRepository.refresh (load_all : Except String LoadedData)
    (s : DataRepository) : DataRepository × Option String :=
  match load_all with
  | Except.error e => (s, some e)
  | Except.ok d =>
      ({ data := some d, customer_features := none, category_counts := none,
         product_counts := none }, none)

/-! ### Segmentation: `kmeans_segments` (IQR filter and error behavior)

The standardization and the k-means fit are `sklearn` calls on floating-point
matrices; they are kept abstract as the `fit_predict` parameter (the label
vector the fitted model assigns to the retained rows).  Everything the claims
mention — the IQR mask, which customers appear in `assignments`, and the
failure mode when `k` exceeds the retained row count — is modelled
concretely.  `sklearn` raises `ValueError` ("n_samples should be >=
n_clusters") from `fit_predict` when the retained matrix has fewer rows than
`k`; no `ComputationError` or `InsufficientDataError` class exists anywhere
in the repository. -/

inductive PyError where
  | valueError : PyError
  | computationError : PyError
  | insufficientDataError : PyError
deriving DecidableEq, Repr

/-- The five feature columns, in the column order of
`repo.customer_features()`. -/
def feature_dims : List (FeatureVec → ℚ) :=
  [FeatureVec.frequency, FeatureVec.total_items, FeatureVec.distinct_products,
   FeatureVec.distinct_categories, FeatureVec.avg_basket_size]

def sortQ (l : List ℚ) : List ℚ :=
  sortBy (fun a b => decide (a ≤ b)) l

/-- `numpy.percentile(l, q)` with the default linear interpolation: with the
values sorted ascending and `pos = q/100 * (n-1)`, interpolate between the
entries at `floor pos` and `floor pos + 1`. -/
def percentile (q : ℚ) (l : List ℚ) : ℚ :=
  let a := sortQ l
  let pos : ℚ := q / 100 * ((a.length : ℚ) - 1)
  let i : ℕ := ⌊pos⌋.toNat
  let lo := a.getD i 0
  let hi := a.getD (i + 1) lo
  lo + (pos - (i : ℚ)) * (hi - lo)

/-- `Q1 - 1.5 * IQR` for one feature column. -/
def lower_bound (col : List ℚ) : ℚ :=
  percentile 25 col - 3/2 * (percentile 75 col - percentile 25 col)

/-- `Q3 + 1.5 * IQR` for one feature column. -/
def upper_bound (col : List ℚ) : ℚ :=
  percentile 75 col + 3/2 * (percentile 75 col - percentile 25 col)

/-- The accumulated IQR mask for one customer row: the per-dimension bound
checks are AND-ed (`mask &= ...`) over the five feature columns, whose
percentiles are taken over all customers. -/
def within_bounds (customers : List (ℕ × FeatureVec)) (v : FeatureVec) : Prop :=
  ∀ f ∈ feature_dims,
    lower_bound (customers.map (fun c => f c.2)) ≤ f v ∧
    f v ≤ upper_bound (customers.map (fun c => f c.2))

instance (customers : List (ℕ × FeatureVec)) (v : FeatureVec) :
    Decidable (within_bounds customers v) :=
  List.decidableBAll _ feature_dims

/-- `X_filtered` / `ids_filtered`: the customer rows surviving the IQR mask. -/
def retained_customers (customers : List (ℕ × FeatureVec)) :
    List (ℕ × FeatureVec) :=
  customers.filter (fun c => decide (within_bounds customers c.2))

structure SegResult where
  k : ℕ
  assignments : List (ℕ × ℕ)
  outliers_removed : ℕ
  total_customers : ℕ
deriving DecidableEq, Repr

/-- `kmeans_segments(k, random_state, remove_outliers)` restricted to the
claim-relevant outputs (`assignments`, `outliers_removed`,
`total_customers`; the centroid/description/recommendation entries are
derived from the abstract fitted model and omitted).  When fewer rows than
`k` survive the filter, the `KMeans(n_clusters=k).fit_predict` call raises
`sklearn`'s `ValueError`, which nothing in the function catches. -/
def kmeans_segments (fit_predict : List FeatureVec → List ℕ) (k : ℕ)
    (remove_outliers : Bool) (customers : List (ℕ × FeatureVec)) :
    Except PyError SegResult :=
  let retained := if remove_outliers then retained_customers customers
    else customers
  if retained.length < k then Except.error PyError.valueError
  else
    let labels := fit_predict (retained.map (fun c => c.2))
    Except.ok
      { k := k
        assignments := (retained.map (fun c => c.1)).zip labels
        outliers_removed := customers.length - retained.length
        total_customers := retained.length }

/-! ### Concrete instances used by the worked example, witnesses and
counterexamples -/

/-- The spec's worked example: transactions whose deduplicated item sets are
`{1,2}`, `{1,2,3}`, `{2,3}`. -/
def ex_txs : List (List ℕ) := [[1, 2], [1, 2, 3], [2, 3]]

/-- A concrete feature vector. -/
def ex_features : FeatureVec :=
  { frequency := 1, total_items := 2, distinct_products := 3,
    distinct_categories := 4, avg_basket_size := 5 }

/-- Three identical customer rows: the IQR of every feature column is 0 and
every row is within bounds, so all three are retained. -/
def ex_customers : List (ℕ × FeatureVec) :=
  [(1, ex_features), (2, ex_features), (3, ex_features)]

/-- A concrete stand-in for the fitted k-means label assignment. -/
def ex_labels (l : List FeatureVec) : List ℕ := List.range l.length

/-! ### Helper lemmas: insertion sort -/

theorem mem_insertBy {α : Type} {le : α → α → Bool} {a x : α} {l : List α} :
    x ∈ insertBy le a l ↔ x = a ∨ x ∈ l := by
  induction l with
  | nil => simp [insertBy]
  | cons b l ih =>
      by_cases h : le a b
      · simp [insertBy, h]
      · simp only [insertBy, if_neg h, List.mem_cons, ih]
        tauto

theorem perm_insertBy {α : Type} (le : α → α → Bool) (a : α) (l : List α) :
    (insertBy le a l).Perm (a :: l) := by
  induction l with
  | nil => simp [insertBy]
  | cons b l ih =>
      by_cases h : le a b
      · simp [insertBy, h]
      · rw [insertBy, if_neg h]
        exact (ih.cons b).trans (List.Perm.swap a b l)

theorem perm_sortBy {α : Type} (le : α → α → Bool) (l : List α) :
    (sortBy le l).Perm l := by
  induction l with
  | nil => simp [sortBy]
  | cons a l ih => exact (perm_insertBy le a (sortBy le l)).trans (ih.cons a)

theorem pairwise_insertBy {α : Type} (le : α → α → Bool)
    (htot : ∀ a b, le a b = true ∨ le b a = true)
    (htrans : ∀ a b c, le a b = true → le b c = true → le a c = true)
    (a : α) {l : List α} (hl : l.Pairwise (fun x y => le x y = true)) :
    (insertBy le a l).Pairwise (fun x y => le x y = true) := by
  induction l with
  | nil => simp [insertBy]
  | cons b l ih =>
      rcases List.pairwise_cons.mp hl with ⟨hb, hl2⟩
      by_cases h : le a b
      · rw [insertBy, if_pos h]
        refine List.pairwise_cons.mpr ⟨?_, hl⟩
        intro x hx
        rcases List.mem_cons.mp hx with rfl | hx
        · exact h
        · exact htrans a b x h (hb x hx)
      · rw [insertBy, if_neg h]
        have hba : le b a = true := (htot a b).resolve_left h
        refine List.pairwise_cons.mpr ⟨?_, ih hl2⟩
        intro x hx
        rcases mem_insertBy.mp hx with rfl | hx
        · exact hba
        · exact hb x hx

theorem pairwise_sortBy {α : Type} (le : α → α → Bool)
    (htot : ∀ a b, le a b = true ∨ le b a = true)
    (htrans : ∀ a b c, le a b = true → le b c = true → le a c = true)
    (l : List α) :
    (sortBy le l).Pairwise (fun x y => le x y = true) := by
  induction l with
  | nil => simp [sortBy]
  | cons a l ih => exact pairwise_insertBy le htot htrans a ih

theorem sort_rules_perm (l : List Rule) : (sort_rules l).Perm l :=
  perm_sortBy _ l

theorem mem_sort_rules {r : Rule} {l : List Rule} :
    r ∈ sort_rules l ↔ r ∈ l :=
  (sort_rules_perm l).mem_iff

theorem sorted_sort_rules (l : List Rule) :
    (sort_rules l).Pairwise (fun r s => s.lift ≤ r.lift) := by
  have h := pairwise_sortBy (fun r s : Rule => decide (s.lift ≤ r.lift))
    (fun a b => by rcases le_total b.lift a.lift with h | h <;> simp [h])
    (fun a b c hab hbc => by
      simp only [decide_eq_true_eq] at hab hbc ⊢
      exact le_trans hbc hab)
    l
  exact h.imp (fun hxy => of_decide_eq_true hxy)

/-! ### Helper lemmas: canonical pair enumeration -/

theorem mem_sorted_set {x : ℕ} {t : List ℕ} : x ∈ sorted_set t ↔ x ∈ t :=
  ((perm_sortBy _ t.dedup).mem_iff).trans List.mem_dedup

theorem nodup_sorted_set (t : List ℕ) : (sorted_set t).Nodup :=
  ((perm_sortBy _ t.dedup).nodup_iff).mpr t.nodup_dedup

theorem pairwise_lt_sorted_set (t : List ℕ) :
    (sorted_set t).Pairwise (· < ·) := by
  have hle : (sorted_set t).Pairwise (· ≤ ·) := by
    have h := pairwise_sortBy (fun a b : ℕ => decide (a ≤ b))
      (fun a b => by rcases le_total a b with h | h <;> simp [h])
      (fun a b c hab hbc => by
        simp only [decide_eq_true_eq] at hab hbc ⊢
        exact le_trans hab hbc)
      t.dedup
    exact h.imp (fun hxy => of_decide_eq_true hxy)
  have hne : (sorted_set t).Pairwise (· ≠ ·) := nodup_sorted_set t
  exact (hle.and hne).imp (fun h => lt_of_le_of_ne h.1 h.2)

theorem mem_combos2 {l : List ℕ} (hl : l.Pairwise (· < ·)) {a b : ℕ} :
    (a, b) ∈ combos2 l ↔ a ∈ l ∧ b ∈ l ∧ a < b := by
  induction l with
  | nil => simp [combos2]
  | cons c l ih =>
      rcases List.pairwise_cons.mp hl with ⟨hc, hl2⟩
      rw [combos2, List.mem_append]
      constructor
      · intro h
        rcases h with h | h
        · rcases List.mem_map.mp h with ⟨b2, hb2, he⟩
          injection he with h1 h2
          subst h1
          subst h2
          exact ⟨List.mem_cons_self c l, List.mem_cons_of_mem c hb2, hc b2 hb2⟩
        · rcases (ih hl2).mp h with ⟨ha, hb, hab⟩
          exact ⟨List.mem_cons_of_mem c ha, List.mem_cons_of_mem c hb, hab⟩
      · rintro ⟨ha, hb, hab⟩
        rcases List.mem_cons.mp ha with ha1 | ha2
        · rcases List.mem_cons.mp hb with hb1 | hb2
          · rw [ha1, hb1] at hab
            exact absurd hab (lt_irrefl c)
          · refine Or.inl (List.mem_map.mpr ⟨b, hb2, ?_⟩)
            rw [ha1]
        · rcases List.mem_cons.mp hb with hb1 | hb2
          · have h2 : c < a := hc a ha2
            rw [hb1] at hab
            exact absurd hab (asymm h2)
          · exact Or.inr ((ih hl2).mpr ⟨ha2, hb2, hab⟩)

theorem mem_tx_pairs {t : List ℕ} {a b : ℕ} :
    (a, b) ∈ tx_pairs t ↔ a ∈ t ∧ b ∈ t ∧ a < b := by
  unfold tx_pairs
  rw [mem_combos2 (pairwise_lt_sorted_set t)]
  simp [mem_sorted_set]

theorem mem_all_pairs {txs : List (List ℕ)} {a b : ℕ} :
    (a, b) ∈ all_pairs txs ↔ a < b ∧ ∃ t ∈ txs, a ∈ t ∧ b ∈ t := by
  unfold all_pairs
  rw [List.mem_dedup, List.mem_flatMap]
  constructor
  · rintro ⟨t, ht, hp⟩
    rcases mem_tx_pairs.mp hp with ⟨ha, hb, hab⟩
    exact ⟨hab, t, ht, ha, hb⟩
  · rintro ⟨hab, t, ht, ha, hb⟩
    exact ⟨t, ht, mem_tx_pairs.mpr ⟨ha, hb, hab⟩⟩

/-! ### Helper lemmas: counters -/

theorem pair_counts_comm (txs : List (List ℕ)) (a b : ℕ) :
    pair_counts txs a b = pair_counts txs b a :=
  List.countP_congr (fun t _ => by
    simp only [Bool.and_eq_true, decide_eq_true_eq]
    tauto)

theorem pair_counts_le_item_left (txs : List (List ℕ)) (a b : ℕ) :
    pair_counts txs a b ≤ item_counts txs a :=
  List.countP_mono_left (fun t _ h => by
    simp only [Bool.and_eq_true, decide_eq_true_eq] at h ⊢
    exact h.1)

theorem pair_counts_le_length (txs : List (List ℕ)) (a b : ℕ) :
    pair_counts txs a b ≤ txs.length :=
  List.countP_le_length _

theorem item_counts_le_length (txs : List (List ℕ)) (i : ℕ) :
    item_counts txs i ≤ txs.length :=
  List.countP_le_length _

theorem pair_counts_pos {txs : List (List ℕ)} {a b : ℕ}
    (h : ∃ t ∈ txs, a ∈ t ∧ b ∈ t) : 0 < pair_counts txs a b := by
  rw [pair_counts, List.countP_pos_iff]
  rcases h with ⟨t, ht, ha, hb⟩
  exact ⟨t, ht, by simp [ha, hb]⟩

theorem item_counts_pos_left {txs : List (List ℕ)} {a b : ℕ}
    (h : ∃ t ∈ txs, a ∈ t ∧ b ∈ t) : 0 < item_counts txs a :=
  lt_of_lt_of_le (pair_counts_pos h) (pair_counts_le_item_left txs a b)

/-! ### Helper lemmas: characterizing the mined rule set -/

theorem mem_candidate_rules {mS mC : ℚ} {txs : List (List ℕ)} {a b : ℕ}
    {r : Rule} :
    r ∈ candidate_rules mS mC txs (a, b) ↔
      ¬((pair_counts txs a b : ℚ) / (txs.length : ℚ) < mS) ∧
      ((r = ruleOf txs a b ∧ mC ≤ (ruleOf txs a b).confidence) ∨
       (r = ruleOf txs b a ∧ mC ≤ (ruleOf txs b a).confidence)) := by
  unfold candidate_rules
  split_ifs with h1 h2 h3 <;> simp_all [List.mem_append]

theorem mem_retained_rules {mS mC : ℚ} {txs : List (List ℕ)} {r : Rule} :
    r ∈ retained_rules mS mC txs ↔
      ∃ a b, (a, b) ∈ all_pairs txs ∧ r ∈ candidate_rules mS mC txs (a, b) := by
  unfold retained_rules
  rw [List.mem_flatMap]
  constructor
  · rintro ⟨⟨a, b⟩, hp, hr⟩
    exact ⟨a, b, hp, hr⟩
  · rintro ⟨a, b, hp, hr⟩
    exact ⟨(a, b), hp, hr⟩

theorem mem_build_rules {mS mC : ℚ} {txs : List (List ℕ)} {r : Rule} :
    r ∈ (build_association_rules mS mC txs).rules ↔
      r ∈ retained_rules mS mC txs := by
  unfold build_association_rules
  exact mem_sort_rules

/-- Every rule in the output arises from a canonical co-occurring pair that
passed the support filter, in one of the two directions, having passed the
confidence filter. -/
theorem rule_shape {mS mC : ℚ} {txs : List (List ℕ)} {r : Rule}
    (h : r ∈ (build_association_rules mS mC txs).rules) :
    ∃ a b, a < b ∧ (∃ t ∈ txs, a ∈ t ∧ b ∈ t) ∧
      ¬((pair_counts txs a b : ℚ) / (txs.length : ℚ) < mS) ∧
      ((r = ruleOf txs a b ∧ mC ≤ (ruleOf txs a b).confidence) ∨
       (r = ruleOf txs b a ∧ mC ≤ (ruleOf txs b a).confidence)) := by
  rcases mem_retained_rules.mp (mem_build_rules.mp h) with ⟨a, b, hp, hr⟩
  rcases mem_all_pairs.mp hp with ⟨hab, hocc⟩
  rcases mem_candidate_rules.mp hr with ⟨hsup, hdir⟩
  exact ⟨a, b, hab, hocc, hsup, hdir⟩

/-! ### Helper lemmas: metric bounds of a single rule -/

theorem txs_length_pos {txs : List (List ℕ)} {x y : ℕ}
    (hocc : ∃ t ∈ txs, x ∈ t ∧ y ∈ t) : 0 < txs.length := by
  rcases hocc with ⟨t, ht, _⟩
  exact List.length_pos.mpr (List.ne_nil_of_mem ht)

theorem ruleOf_confidence_le_one {txs : List (List ℕ)} {x y : ℕ}
    (hocc : ∃ t ∈ txs, x ∈ t ∧ y ∈ t) :
    (ruleOf txs x y).confidence ≤ 1 := by
  have hx : 0 < item_counts txs x := item_counts_pos_left hocc
  have hle : pair_counts txs x y ≤ item_counts txs x :=
    pair_counts_le_item_left txs x y
  simp only [ruleOf]
  rw [div_le_one (by exact_mod_cast hx)]
  exact_mod_cast hle

theorem ruleOf_support_le_one {txs : List (List ℕ)} {x y : ℕ}
    (hocc : ∃ t ∈ txs, x ∈ t ∧ y ∈ t) :
    (ruleOf txs x y).support ≤ 1 := by
  have hlen : 0 < txs.length := txs_length_pos hocc
  have hle : pair_counts txs x y ≤ txs.length := pair_counts_le_length txs x y
  simp only [ruleOf]
  rw [div_le_one (by exact_mod_cast hlen)]
  exact_mod_cast hle

theorem ruleOf_lift_nonneg (txs : List (List ℕ)) (x y : ℕ) :
    0 ≤ (ruleOf txs x y).lift := by
  simp only [ruleOf]
  positivity

theorem ruleOf_lift_formula (txs : List (List ℕ)) (x y : ℕ) :
    (ruleOf txs x y).lift =
      ((pair_counts txs x y : ℚ) * (txs.length : ℚ)) /
        ((item_counts txs x : ℚ) * (item_counts txs y : ℚ)) := by
  simp only [ruleOf]
  rw [div_div_div_eq]

/-! ### Evaluation of the spec's worked example -/

theorem ex_retained_rules_eval :
    retained_rules (34/100) (1/2) ex_txs =
      [⟨1, 2, 2/3, 1, 1⟩, ⟨2, 1, 2/3, 2/3, 1⟩,
       ⟨2, 3, 2/3, 2/3, 1⟩, ⟨3, 2, 2/3, 1, 1⟩] := by
  norm_num [retained_rules, all_pairs, ex_txs, tx_pairs, sorted_set, sortBy,
    insertBy, combos2, List.dedup, candidate_rules, ruleOf, pair_counts,
    item_counts, List.countP, List.countP.go]

theorem ex_mem_rule12 :
    (⟨1, 2, 2/3, 1, 1⟩ : Rule) ∈
      (build_association_rules (34/100) (1/2) ex_txs).rules := by
  rw [mem_build_rules, ex_retained_rules_eval]
  simp

theorem ex_mem_rule21 :
    (⟨2, 1, 2/3, 2/3, 1⟩ : Rule) ∈
      (build_association_rules (34/100) (1/2) ex_txs).rules := by
  rw [mem_build_rules, ex_retained_rules_eval]
  simp

/-! ### Claim theorems: the rule miner -/

/-- C1: `build_association_rules` computes, for every retained rule over the
per-transaction deduplicated item sets,
`confidence(a → b) = pair_count(a,b) / item_count(a)` and
`lift(a → b) = confidence(a → b) / (item_count(b) / total_transactions)`
(symmetrically for the `b → a` direction, expressed below uniformly in terms
of each rule's own antecedent/consequent since `pair_counts` is symmetric);
and on the deduplicated transactions `{1,2}, {1,2,3}, {2,3}` with
`MIN_SUPPORT = 0.34` and `MIN_CONFIDENCE = 0.5` the output contains the rule
`1 → 2` with support 2/3, confidence 1, lift 1 and the rule `2 → 1` with
support 2/3, confidence 2/3, lift 1. -/
theorem build_association_rules_metrics :
    (∀ (mS mC : ℚ) (txs : List (List ℕ)) (r : Rule),
        r ∈ (build_association_rules mS mC txs).rules →
          r.confidence = (pair_counts txs r.antecedent r.consequent : ℚ) /
              (item_counts txs r.antecedent : ℚ) ∧
          r.lift = r.confidence /
              ((item_counts txs r.consequent : ℚ) / (txs.length : ℚ))) ∧
    (⟨1, 2, 2/3, 1, 1⟩ : Rule) ∈
      (build_association_rules (34/100) (1/2) ex_txs).rules ∧
    (⟨2, 1, 2/3, 2/3, 1⟩ : Rule) ∈
      (build_association_rules (34/100) (1/2) ex_txs).rules := by
  refine ⟨?_, ex_mem_rule12, ex_mem_rule21⟩
  intro mS mC txs r hr
  rcases rule_shape hr with ⟨a, b, _, _, _, hdir⟩
  rcases hdir with ⟨rfl, _⟩ | ⟨rfl, _⟩ <;> simp [ruleOf]

/-- C1 witness: instantiating the universally quantified part at the worked
example and the concrete rule `2 → 1`, discharging the membership
hypothesis. -/
theorem build_association_rules_metrics_witness :
    (⟨2, 1, 2/3, 2/3, 1⟩ : Rule) ∈
      (build_association_rules (34/100) (1/2) ex_txs).rules ∧
    ((2/3 : ℚ) = (pair_counts ex_txs 2 1 : ℚ) / (item_counts ex_txs 2 : ℚ) ∧
     (1 : ℚ) = (2/3 : ℚ) /
       ((item_counts ex_txs 1 : ℚ) / (ex_txs.length : ℚ))) := by
  have hmem := build_association_rules_metrics.2.2
  exact ⟨hmem,
    build_association_rules_metrics.1 (34/100) (1/2) ex_txs _ hmem⟩

/-- C2: in the mined rule set, every rule has
`MIN_CONFIDENCE ≤ confidence ≤ 1`, `MIN_SUPPORT ≤ support ≤ 1` and
`lift ≥ 0`, under the precondition `total_transactions > 0`. -/
theorem build_association_rules_bounds :
    ∀ (mS mC : ℚ) (txs : List (List ℕ)), 0 < txs.length →
      ∀ r ∈ (build_association_rules mS mC txs).rules,
        (mC ≤ r.confidence ∧ r.confidence ≤ 1) ∧
        (mS ≤ r.support ∧ r.support ≤ 1) ∧ 0 ≤ r.lift := by
  intro mS mC txs _ r hr
  rcases rule_shape hr with ⟨a, b, _, hocc, hsup, hdir⟩
  have hsup2 : mS ≤ (pair_counts txs a b : ℚ) / (txs.length : ℚ) :=
    le_of_not_lt hsup
  have hoccs : ∃ t ∈ txs, b ∈ t ∧ a ∈ t := by
    rcases hocc with ⟨t, ht, h1, h2⟩
    exact ⟨t, ht, h2, h1⟩
  rcases hdir with ⟨rfl, hconf⟩ | ⟨rfl, hconf⟩
  · refine ⟨⟨hconf, ruleOf_confidence_le_one hocc⟩,
      ⟨hsup2, ruleOf_support_le_one hocc⟩, ruleOf_lift_nonneg txs a b⟩
  · refine ⟨⟨hconf, ruleOf_confidence_le_one hoccs⟩,
      ⟨?_, ruleOf_support_le_one hoccs⟩, ruleOf_lift_nonneg txs b a⟩
    have hco : pair_counts txs b a = pair_counts txs a b :=
      pair_counts_comm txs b a
    simp only [ruleOf, hco]
    exact hsup2

/-- C2 witness: the bounds instantiated at the worked example
(`0 < 3` and the membership hypothesis hold there). -/
theorem build_association_rules_bounds_witness :
    0 < ex_txs.length ∧
    (((1/2 : ℚ) ≤ (⟨2, 1, 2/3, 2/3, 1⟩ : Rule).confidence ∧
        (⟨2, 1, 2/3, 2/3, 1⟩ : Rule).confidence ≤ 1) ∧
      ((34/100 : ℚ) ≤ (⟨2, 1, 2/3, 2/3, 1⟩ : Rule).support ∧
        (⟨2, 1, 2/3, 2/3, 1⟩ : Rule).support ≤ 1) ∧
      0 ≤ (⟨2, 1, 2/3, 2/3, 1⟩ : Rule).lift) := by
  refine ⟨by norm_num [ex_txs], ?_⟩
  exact build_association_rules_bounds (34/100) (1/2) ex_txs
    (by norm_num [ex_txs]) _ ex_mem_rule21

/-- C3: the returned rule list is sorted non-increasing by lift and contains
exactly the retained directional rules (the full retained list — nothing is
truncated to a top-N). -/
theorem build_association_rules_sorted_complete :
    ∀ (mS mC : ℚ) (txs : List (List ℕ)),
      ((build_association_rules mS mC txs).rules).Pairwise
        (fun r s => s.lift ≤ r.lift) ∧
      ∀ r : Rule, r ∈ (build_association_rules mS mC txs).rules ↔
        r ∈ retained_rules mS mC txs :=
  fun _ _ _ => ⟨sorted_sort_rules _, fun _ => mem_build_rules⟩

/-- C10: for every mined rule, `support = pair_count / total` and
`lift = pair_count * total / (item_count(antecedent) * item_count(consequent))`
— both expressions symmetric in the two rule sides — hence the two
directional rules derived from one retained pair carry the same support and
the same lift. -/
theorem directional_rules_share_support_lift :
    (∀ (mS mC : ℚ) (txs : List (List ℕ)) (r : Rule),
        r ∈ (build_association_rules mS mC txs).rules →
          r.support = (pair_counts txs r.antecedent r.consequent : ℚ) /
              (txs.length : ℚ) ∧
          r.lift = ((pair_counts txs r.antecedent r.consequent : ℚ) *
              (txs.length : ℚ)) /
            ((item_counts txs r.antecedent : ℚ) *
              (item_counts txs r.consequent : ℚ))) ∧
    (∀ (mS mC : ℚ) (txs : List (List ℕ)) (r s : Rule),
        r ∈ (build_association_rules mS mC txs).rules →
        s ∈ (build_association_rules mS mC txs).rules →
        r.antecedent = s.consequent → r.consequent = s.antecedent →
        r.support = s.support ∧ r.lift = s.lift) := by
  have hform : ∀ (mS mC : ℚ) (txs : List (List ℕ)) (r : Rule),
      r ∈ (build_association_rules mS mC txs).rules →
        r.support = (pair_counts txs r.antecedent r.consequent : ℚ) /
            (txs.length : ℚ) ∧
        r.lift = ((pair_counts txs r.antecedent r.consequent : ℚ) *
            (txs.length : ℚ)) /
          ((item_counts txs r.antecedent : ℚ) *
            (item_counts txs r.consequent : ℚ)) := by
    intro mS mC txs r hr
    rcases rule_shape hr with ⟨a, b, _, _, _, hdir⟩
    rcases hdir with ⟨rfl, _⟩ | ⟨rfl, _⟩
    · exact ⟨rfl, ruleOf_lift_formula txs a b⟩
    · exact ⟨rfl, ruleOf_lift_formula txs b a⟩
  refine ⟨hform, ?_⟩
  intro mS mC txs r s hr hs hac hca
  rcases hform mS mC txs r hr with ⟨hrs, hrl⟩
  rcases hform mS mC txs s hs with ⟨hss, hsl⟩
  have hpc : pair_counts txs r.antecedent r.consequent =
      pair_counts txs s.antecedent s.consequent := by
    rw [hac, hca]
    exact pair_counts_comm txs s.consequent s.antecedent
  constructor
  · rw [hrs, hss, hpc]
  · rw [hrl, hsl, hpc, hac, hca,
      mul_comm ((item_counts txs s.consequent : ℚ))
        ((item_counts txs s.antecedent : ℚ))]

/-- C10 witness: the two directions of the pair `{1, 2}` in the worked
example share support 2/3 and lift 1. -/
theorem directional_rules_share_support_lift_witness :
    (⟨1, 2, 2/3, 1, 1⟩ : Rule).support = (⟨2, 1, 2/3, 2/3, 1⟩ : Rule).support ∧
    (⟨1, 2, 2/3, 1, 1⟩ : Rule).lift = (⟨2, 1, 2/3, 2/3, 1⟩ : Rule).lift :=
  directional_rules_share_support_lift.2 (34/100) (1/2) ex_txs
    ⟨1, 2, 2/3, 1, 1⟩ ⟨2, 1, 2/3, 2/3, 1⟩ ex_mem_rule12 ex_mem_rule21 rfl rfl

/-! ### Claim theorems: repository refresh and rule cache -/

/-- C6: if the `load_all` call inside `DataRepository.refresh()` raises, every
field of the repository — the loaded data and the three derived caches
(`product_counts`, `category_counts`, `customer_features`) — is left exactly
as it was, and the failure propagates to the caller. -/
theorem refresh_failure_preserves_state :
    ∀ (s : DataRepository) (load_all : Except String LoadedData) (e : String),
      load_all = Except.error e →
      (DataRepository.refresh load_all s).1 = s ∧
      (DataRepository.refresh load_all s).2 = some e := by
  intro s la e h
  subst h
  exact ⟨rfl, rfl⟩

/-- C6 witness: a concrete repository with loaded state and all three caches
populated survives a failing refresh untouched, and the error is reported. -/
theorem refresh_failure_preserves_state_witness :
    (Except.error "no transaction files" : Except String LoadedData) =
      Except.error "no transaction files" ∧
    ((DataRepository.refresh (Except.error "no transaction files")
        ⟨some ⟨[(1, [2, 3])]⟩, some [(1, ex_features)], some [(4, 7)],
          some [(2, 5)]⟩).1 =
      ⟨some ⟨[(1, [2, 3])]⟩, some [(1, ex_features)], some [(4, 7)],
        some [(2, 5)]⟩ ∧
     (DataRepository.refresh (Except.error "no transaction files")
        ⟨some ⟨[(1, [2, 3])]⟩, some [(1, ex_features)], some [(4, 7)],
          some [(2, 5)]⟩).2 = some "no transaction files") :=
  ⟨rfl, refresh_failure_preserves_state
    ⟨some ⟨[(1, [2, 3])]⟩, some [(1, ex_features)], some [(4, 7)],
      some [(2, 5)]⟩
    (Except.error "no transaction files") "no transaction files" rfl⟩

/-- C7 counterexample: `DataRepository.refresh()` clears only the
repository's own caches, not the module-level `_cached_rules`, so after a
successful refresh onto new transactions a `get_rules()` call still returns
the rules mined from the old data, which differ from
`build_association_rules` over the new data. -/
theorem refresh_leaves_rule_cache_stale :
    (get_rules (refresh_transactions [(5, [3, 4]), (6, [3, 4])]
        ⟨[(9, [1, 2])],
         some (build_association_rules MIN_SUPPORT MIN_CONFIDENCE
            [[1, 2]])⟩)).1 ≠
      build_association_rules MIN_SUPPORT MIN_CONFIDENCE
        (([(5, [3, 4]), (6, [3, 4])] : List (ℕ × List ℕ)).map
          (fun t => t.2)) := by
  have h1 : (get_rules (refresh_transactions [(5, [3, 4]), (6, [3, 4])]
      ⟨[(9, [1, 2])],
       some (build_association_rules MIN_SUPPORT MIN_CONFIDENCE
          [[1, 2]])⟩)).1 =
      build_association_rules MIN_SUPPORT MIN_CONFIDENCE [[1, 2]] := rfl
  have h2 : (build_association_rules MIN_SUPPORT MIN_CONFIDENCE
      [[1, 2]]).rules = [⟨1, 2, 1, 1, 1⟩, ⟨2, 1, 1, 1, 1⟩] := by
    norm_num [build_association_rules, MIN_SUPPORT, MIN_CONFIDENCE,
      sort_rules, sortBy, insertBy, retained_rules, all_pairs, tx_pairs,
      sorted_set, combos2, List.dedup, candidate_rules, ruleOf, pair_counts,
      item_counts, List.countP, List.countP.go]
  have h3 : (build_association_rules MIN_SUPPORT MIN_CONFIDENCE
      (([(5, [3, 4]), (6, [3, 4])] : List (ℕ × List ℕ)).map
        (fun t => t.2))).rules = [⟨3, 4, 1, 1, 1⟩, ⟨4, 3, 1, 1, 1⟩] := by
    norm_num [build_association_rules, MIN_SUPPORT, MIN_CONFIDENCE,
      sort_rules, sortBy, insertBy, retained_rules, all_pairs, tx_pairs,
      sorted_set, combos2, List.dedup, candidate_rules, ruleOf, pair_counts,
      item_counts, List.countP, List.countP.go]
  intro h
  rw [h1] at h
  have h4 := congrArg RulesResult.rules h
  rw [h2, h3] at h4
  simp [Rule.mk.injEq] at h4

/-- C7 amended: `DataRepository.refresh()` does not invalidate the memoized
rule cache — after a refresh, `get_rules()` still returns the previously
cached rules whenever a cache is present; only when the caller explicitly
empties `_cached_rules` (as the HTTP layer does after calling `refresh()`)
does `get_rules()` recompute from the newly loaded transaction data. -/
theorem rule_cache_invalidation_is_external :
    (∀ (s : RecState) (newTxs : List (ℕ × List ℕ)) (R : RulesResult),
        s.cached_rules = some R →
        (get_rules (refresh_transactions newTxs s)).1 = R) ∧
    (∀ (s : RecState) (newTxs : List (ℕ × List ℕ)),
        (get_rules
            { refresh_transactions newTxs s with cached_rules := none }).1 =
          build_association_rules MIN_SUPPORT MIN_CONFIDENCE
            (newTxs.map (fun t => t.2))) := by
  constructor
  · intro s newTxs R h
    simp [get_rules, refresh_transactions, h]
  · intro s newTxs
    simp [get_rules, refresh_transactions]

/-- C7 amended witness: with a concrete populated cache, a refresh leaves
`get_rules()` returning the old cached value. -/
theorem rule_cache_invalidation_is_external_witness :
    (RecState.cached_rules
        ⟨[(9, [1, 2])], some ⟨[⟨1, 2, 1, 1, 1⟩], [(1, 1)]⟩⟩ =
      some ⟨[⟨1, 2, 1, 1, 1⟩], [(1, 1)]⟩) ∧
    (get_rules (refresh_transactions [(5, [3, 4])]
        ⟨[(9, [1, 2])], some ⟨[⟨1, 2, 1, 1, 1⟩], [(1, 1)]⟩⟩)).1 =
      ⟨[⟨1, 2, 1, 1, 1⟩], [(1, 1)]⟩ :=
  ⟨rfl, rule_cache_invalidation_is_external.1
    ⟨[(9, [1, 2])], some ⟨[⟨1, 2, 1, 1, 1⟩], [(1, 1)]⟩⟩
    [(5, [3, 4])] ⟨[⟨1, 2, 1, 1, 1⟩], [(1, 1)]⟩ rfl⟩

/-- C5 (code bug): for a customer id that appears in no transaction row,
`recommend_for_customer` does not return an empty recommendation list —
`pandas.Series.sum()` over the empty filtered series yields the integer `0`
and `set(0)` raises `TypeError` (embedded as `none`), contradicting the
spec's "unknown/no-history customer → empty list, not an error". -/
theorem recommend_unknown_customer_raises :
    recommend_for_customer ⟨[(1, [10, 11])], some ⟨[], []⟩⟩ 2 5 = none := by
  rfl

/-! ### Claim theorems: segmentation -/

theorem ex_retained_customers_eval :
    retained_customers ex_customers = ex_customers := by
  apply List.filter_eq_self.mpr
  intro c hc
  rw [decide_eq_true_eq]
  fin_cases hc <;>
    norm_num [within_bounds, feature_dims, lower_bound, upper_bound,
      percentile, sortQ, sortBy, insertBy, ex_customers, ex_features,
      List.getD]

/-- With `remove_outliers = True`, `kmeans_segments` is, definitionally, the
guard on the retained row count followed by the zip of retained ids with the
fitted labels. -/
theorem kmeans_segments_true_def (fp : List FeatureVec → List ℕ) (k : ℕ)
    (customers : List (ℕ × FeatureVec)) :
    kmeans_segments fp k true customers =
      if (retained_customers customers).length < k then
        Except.error PyError.valueError
      else
        Except.ok
          { k := k
            assignments :=
              ((retained_customers customers).map (fun c => c.1)).zip
                (fp ((retained_customers customers).map (fun c => c.2)))
            outliers_removed :=
              customers.length - (retained_customers customers).length
            total_customers := (retained_customers customers).length } := rfl

/-- C8: with outlier removal on, a customer row is retained exactly when its
value in every one of the 5 feature dimensions lies within
`[Q1 - 1.5*IQR, Q3 + 1.5*IQR]` of that dimension (AND across dimensions),
the quartiles being the 25th/75th percentiles of the dimension over all
customers; and every cluster assignment produced belongs to a retained
customer. -/
theorem kmeans_iqr_retention :
    ∀ (customers : List (ℕ × FeatureVec)) (fp : List FeatureVec → List ℕ)
      (k : ℕ) (c : ℕ × FeatureVec) (res : SegResult),
      customers ≠ [] →
      ((c ∈ retained_customers customers ↔ c ∈ customers ∧
          ∀ f ∈ feature_dims,
            lower_bound (customers.map (fun x => f x.2)) ≤ f c.2 ∧
            f c.2 ≤ upper_bound (customers.map (fun x => f x.2))) ∧
       (kmeans_segments fp k true customers = Except.ok res →
          ∀ p ∈ res.assignments,
            p.1 ∈ (retained_customers customers).map (fun x => x.1))) := by
  intro customers fp k c res _hne
  constructor
  · rw [retained_customers, List.mem_filter, decide_eq_true_eq]
    exact Iff.rfl
  · intro h p hp
    rw [kmeans_segments_true_def] at h
    split_ifs at h with hk
    injection h with h2
    subst h2
    rcases p with ⟨pid, plbl⟩
    exact (List.of_mem_zip hp).1

/-- C8 witness: three identical customer rows; all are retained (zero IQR in
every dimension), and with `k = 2` all assignments name retained
customers. -/
theorem kmeans_iqr_retention_witness :
    ex_customers ≠ [] ∧
    ((1, ex_features) ∈ retained_customers ex_customers ↔
      (1, ex_features) ∈ ex_customers ∧
      ∀ f ∈ feature_dims,
        lower_bound (ex_customers.map (fun x => f x.2)) ≤ f ex_features ∧
        f ex_features ≤ upper_bound (ex_customers.map (fun x => f x.2))) ∧
    (∀ p ∈ ((⟨2, [(1, 0), (2, 1), (3, 2)], 0, 3⟩ : SegResult)).assignments,
        p.1 ∈ (retained_customers ex_customers).map (fun x => x.1)) := by
  have h := kmeans_iqr_retention ex_customers ex_labels 2 (1, ex_features)
    ⟨2, [(1, 0), (2, 1), (3, 2)], 0, 3⟩ (by simp [ex_customers])
  refine ⟨by simp [ex_customers], h.1, h.2 ?_⟩
  rw [kmeans_segments_true_def, ex_retained_customers_eval]
  simp [ex_customers, ex_labels, List.range_succ]

/-- C9 counterexample: with `k = 4` and only 3 retained customers,
`kmeans_segments` produces the underlying library's `ValueError` (sklearn's
`n_samples >= n_clusters` check), which is neither the
`InsufficientDataError` nor the `ComputationError` the claim promises — no
such error class exists in the repository. -/
theorem kmeans_k_exceeds_not_domain_error :
    kmeans_segments ex_labels 4 true ex_customers =
      Except.error PyError.valueError ∧
    (Except.error PyError.valueError : Except PyError SegResult) ≠
      Except.error PyError.insufficientDataError ∧
    (Except.error PyError.valueError : Except PyError SegResult) ≠
      Except.error PyError.computationError := by
  refine ⟨?_, by simp, by simp⟩
  rw [kmeans_segments_true_def, ex_retained_customers_eval]
  simp [ex_customers]

/-- C9 amended: when the requested `k` exceeds the number of customers
retained after outlier filtering, `kmeans_segments` raises the generic
library `ValueError` from the k-means fit — an uncaught crash rather than an
explicit `ComputationError`/`InsufficientDataError`. -/
theorem kmeans_k_exceeds_value_error :
    ∀ (fp : List FeatureVec → List ℕ) (k : ℕ)
      (customers : List (ℕ × FeatureVec)),
      (retained_customers customers).length < k →
      kmeans_segments fp k true customers =
        Except.error PyError.valueError := by
  intro fp k customers h
  rw [kmeans_segments_true_def, if_pos h]

/-- C9 amended witness: the concrete run with `k = 4` over 3 retained
customers. -/
theorem kmeans_k_exceeds_value_error_witness :
    (retained_customers ex_customers).length < 4 ∧
    kmeans_segments ex_labels 4 true ex_customers =
      Except.error PyError.valueError := by
  have hlen : (retained_customers ex_customers).length < 4 := by
    rw [ex_retained_customers_eval]
    simp [ex_customers]
  exact ⟨hlen, kmeans_k_exceeds_value_error ex_labels 4 ex_customers hlen⟩

/-! ### Helper lemmas: the per-consequent dedup loop -/

theorem upd_best_inv (r : Rule) {acc processed : List Rule}
    (h1 : (acc.map Rule.consequent).Nodup)
    (h2 : ∀ s ∈ acc, s ∈ processed)
    (h3 : ∀ s ∈ acc, ∀ p ∈ processed,
        p.consequent = s.consequent → p.lift ≤ s.lift)
    (h4 : ∀ p ∈ processed, ∃ s ∈ acc, s.consequent = p.consequent) :
    ((upd_best acc r).map Rule.consequent).Nodup ∧
    (∀ s ∈ upd_best acc r, s ∈ processed ++ [r]) ∧
    (∀ s ∈ upd_best acc r, ∀ p ∈ processed ++ [r],
        p.consequent = s.consequent → p.lift ≤ s.lift) ∧
    (∀ p ∈ processed ++ [r], ∃ s ∈ upd_best acc r,
        s.consequent = p.consequent) := by
  by_cases hany : acc.any (fun s => s.consequent == r.consequent) = true
  · rw [upd_best, if_pos hany]
    have hfc : ∀ s : Rule,
        (if s.consequent == r.consequent && decide (s.lift < r.lift)
          then r else s).consequent = s.consequent := by
      intro s
      by_cases hc :
          (s.consequent == r.consequent && decide (s.lift < r.lift)) = true
      · have hc2 : s.consequent = r.consequent ∧ s.lift < r.lift := by
          simpa using hc
        rw [if_pos hc]
        exact hc2.1.symm
      · rw [if_neg hc]
    refine ⟨?_, ?_, ?_, ?_⟩
    · rw [List.map_map]
      have he : acc.map (Rule.consequent ∘ fun s =>
          if s.consequent == r.consequent && decide (s.lift < r.lift)
            then r else s) = acc.map Rule.consequent :=
        List.map_congr_left (fun s _ => hfc s)
      rw [he]
      exact h1
    · intro s hs
      rcases List.mem_map.mp hs with ⟨s0, hs0, he⟩
      by_cases hc :
          (s0.consequent == r.consequent && decide (s0.lift < r.lift)) = true
      · rw [if_pos hc] at he
        rw [← he]
        exact List.mem_append.mpr (Or.inr (List.mem_singleton.mpr rfl))
      · rw [if_neg hc] at he
        rw [← he]
        exact List.mem_append.mpr (Or.inl (h2 s0 hs0))
    · intro s hs p hp hpc
      rcases List.mem_map.mp hs with ⟨s0, hs0, he⟩
      rcases List.mem_append.mp hp with hp | hp
      · by_cases hc :
            (s0.consequent == r.consequent && decide (s0.lift < r.lift)) = true
        · have hc2 : s0.consequent = r.consequent ∧ s0.lift < r.lift := by
            simpa using hc
          rw [if_pos hc] at he
          rw [← he] at hpc ⊢
          have hplift : p.lift ≤ s0.lift := by
            apply h3 s0 hs0 p hp
            rw [hpc, ← hc2.1]
          exact le_of_lt (lt_of_le_of_lt hplift hc2.2)
        · rw [if_neg hc] at he
          rw [← he] at hpc ⊢
          exact h3 s0 hs0 p hp hpc
      · rw [List.mem_singleton.mp hp] at hpc ⊢
        by_cases hc :
            (s0.consequent == r.consequent && decide (s0.lift < r.lift)) = true
        · rw [if_pos hc] at he
          rw [← he]
        · have hc2 : ¬(s0.consequent = r.consequent ∧ s0.lift < r.lift) := by
            intro hand
            apply hc
            simp [hand.1, hand.2]
          rw [if_neg hc] at he
          rw [← he] at hpc ⊢
          have hnlt : ¬ s0.lift < r.lift := fun hlt => hc2 ⟨hpc.symm, hlt⟩
          exact le_of_not_lt hnlt
    · intro p hp
      rcases List.mem_append.mp hp with hp | hp
      · rcases h4 p hp with ⟨s0, hs0, hsc⟩
        refine ⟨(if s0.consequent == r.consequent && decide (s0.lift < r.lift)
            then r else s0), List.mem_map.mpr ⟨s0, hs0, rfl⟩, ?_⟩
        rw [hfc s0]
        exact hsc
      · rcases List.any_eq_true.mp hany with ⟨s0, hs0, hb⟩
        refine ⟨(if s0.consequent == r.consequent && decide (s0.lift < r.lift)
            then r else s0), List.mem_map.mpr ⟨s0, hs0, rfl⟩, ?_⟩
        rw [hfc s0, List.mem_singleton.mp hp]
        exact eq_of_beq hb
  · rw [upd_best, if_neg hany]
    have hnone : ∀ s ∈ acc, s.consequent ≠ r.consequent := by
      intro s hs he
      exact hany (List.any_eq_true.mpr ⟨s, hs, by simp [he]⟩)
    refine ⟨?_, ?_, ?_, ?_⟩
    · rw [List.map_append, List.nodup_append]
      refine ⟨h1, List.nodup_singleton _, ?_⟩
      intro x hx hx2
      rcases List.mem_map.mp hx with ⟨s0, hs0, he⟩
      rcases List.mem_map.mp hx2 with ⟨s1, hs1, he2⟩
      rw [List.mem_singleton.mp hs1] at he2
      exact hnone s0 hs0 (he.trans he2.symm)
    · intro s hs
      rcases List.mem_append.mp hs with hs | hs
      · exact List.mem_append.mpr (Or.inl (h2 s hs))
      · exact List.mem_append.mpr (Or.inr hs)
    · intro s hs p hp hpc
      rcases List.mem_append.mp hs with hs | hs
      · rcases List.mem_append.mp hp with hp | hp
        · exact h3 s hs p hp hpc
        · rw [List.mem_singleton.mp hp] at hpc
          exact absurd hpc.symm (hnone s hs)
      · rw [List.mem_singleton.mp hs] at hpc ⊢
        rcases List.mem_append.mp hp with hp | hp
        · rcases h4 p hp with ⟨s0, hs0, hsc⟩
          exact absurd (hsc.trans hpc) (hnone s0 hs0)
        · rw [List.mem_singleton.mp hp]
    · intro p hp
      rcases List.mem_append.mp hp with hp | hp
      · rcases h4 p hp with ⟨s0, hs0, hsc⟩
        exact ⟨s0, List.mem_append.mpr (Or.inl hs0), hsc⟩
      · exact ⟨r, List.mem_append.mpr (Or.inr (List.mem_singleton.mpr rfl)),
          (List.mem_singleton.mp hp) ▸ rfl⟩

theorem foldl_upd_best_inv :
    ∀ (l : List Rule) (acc processed : List Rule),
      (acc.map Rule.consequent).Nodup →
      (∀ s ∈ acc, s ∈ processed) →
      (∀ s ∈ acc, ∀ p ∈ processed,
          p.consequent = s.consequent → p.lift ≤ s.lift) →
      (∀ p ∈ processed, ∃ s ∈ acc, s.consequent = p.consequent) →
      ((l.foldl upd_best acc).map Rule.consequent).Nodup ∧
      (∀ s ∈ l.foldl upd_best acc, s ∈ processed ++ l) ∧
      (∀ s ∈ l.foldl upd_best acc, ∀ p ∈ processed ++ l,
          p.consequent = s.consequent → p.lift ≤ s.lift) ∧
      (∀ p ∈ processed ++ l, ∃ s ∈ l.foldl upd_best acc,
          s.consequent = p.consequent) := by
  intro l
  induction l with
  | nil =>
      intro acc processed h1 h2 h3 h4
      simpa using ⟨h1, h2, h3, h4⟩
  | cons r l ih =>
      intro acc processed h1 h2 h3 h4
      have h5 := upd_best_inv r h1 h2 h3 h4
      have h6 := ih (upd_best acc r) (processed ++ [r])
        h5.1 h5.2.1 h5.2.2.1 h5.2.2.2
      simpa [List.append_assoc] using h6

theorem best_by_consequent_spec (scored : List Rule) :
    ((best_by_consequent scored).map Rule.consequent).Nodup ∧
    (∀ s ∈ best_by_consequent scored, s ∈ scored) ∧
    (∀ s ∈ best_by_consequent scored, ∀ p ∈ scored,
        p.consequent = s.consequent → p.lift ≤ s.lift) := by
  have h := foldl_upd_best_inv scored [] []
    (by simp) (by simp) (by simp) (by simp)
  rw [best_by_consequent]
  refine ⟨h.1, ?_, ?_⟩
  · intro s hs
    simpa using h.2.1 s hs
  · intro s hs p hp
    exact h.2.2.1 s hs p (by simpa using hp)

theorem recommend_for_customer_def (s : RecState) (cid top_n : ℕ)
    (h : ¬(cust_lists s.transactions cid).isEmpty = true) :
    recommend_for_customer s cid top_n =
      some ((sort_rules (best_by_consequent
        (scored_rules (get_rules s).1.rules
          (owned_products s.transactions cid)))).take top_n) := by
  have hdef : recommend_for_customer s cid top_n =
      if (cust_lists s.transactions cid).isEmpty then none
      else some ((sort_rules (best_by_consequent
        (scored_rules (get_rules s).1.rules
          ((cust_lists s.transactions cid).flatten)))).take top_n) := rfl
  rw [hdef, if_neg h]
  rfl

/-! ### Claim theorems: per-customer recommendations -/

/-- C4: for a customer with purchase history, `recommend_for_customer`
returns only rules whose antecedent is in the customer's owned product set
and whose consequent is not (so no recommended product is already in the
history), keeps at most one rule per consequent — one of maximal lift among
the matching rules — sorts descending by lift, and truncates to the first
`top_n`. -/
theorem recommend_for_customer_spec :
    ∀ (s : RecState) (cid top_n : ℕ), cust_lists s.transactions cid ≠ [] →
      ∃ recs, recommend_for_customer s cid top_n = some recs ∧
        (∀ r ∈ recs,
            r.antecedent ∈ owned_products s.transactions cid ∧
            r.consequent ∉ owned_products s.transactions cid) ∧
        (∀ r ∈ recs, r ∈ scored_rules (get_rules s).1.rules
            (owned_products s.transactions cid)) ∧
        (recs.map Rule.consequent).Nodup ∧
        (∀ r ∈ recs, ∀ p ∈ scored_rules (get_rules s).1.rules
            (owned_products s.transactions cid),
            p.consequent = r.consequent → p.lift ≤ r.lift) ∧
        recs.Pairwise (fun r1 r2 => r2.lift ≤ r1.lift) ∧
        recs.length ≤ top_n := by
  intro s cid top_n hne
  have hnb : ¬(cust_lists s.transactions cid).isEmpty = true := by
    simpa [List.isEmpty_iff] using hne
  refine ⟨_, recommend_for_customer_def s cid top_n hnb, ?_, ?_, ?_, ?_, ?_, ?_⟩
  · intro r hr
    have hbest : r ∈ best_by_consequent (scored_rules (get_rules s).1.rules
        (owned_products s.transactions cid)) :=
      mem_sort_rules.mp (List.take_subset _ _ hr)
    have hsc := (best_by_consequent_spec _).2.1 r hbest
    have := List.mem_filter.mp hsc
    simpa using this.2
  · intro r hr
    exact (best_by_consequent_spec _).2.1 r
      (mem_sort_rules.mp (List.take_subset _ _ hr))
  · have hperm : ((sort_rules (best_by_consequent
        (scored_rules (get_rules s).1.rules
          (owned_products s.transactions cid)))).map Rule.consequent).Perm
        ((best_by_consequent (scored_rules (get_rules s).1.rules
          (owned_products s.transactions cid))).map Rule.consequent) :=
      (sort_rules_perm _).map Rule.consequent
    have hnodup := hperm.nodup_iff.mpr (best_by_consequent_spec _).1
    exact hnodup.sublist ((List.take_sublist _ _).map Rule.consequent)
  · intro r hr p hp hpc
    exact (best_by_consequent_spec _).2.2 r
      (mem_sort_rules.mp (List.take_subset _ _ hr)) p hp hpc
  · exact (sorted_sort_rules _).sublist (List.take_sublist _ _)
  · rw [List.length_take]
    exact min_le_left _ _

/-- C4 witness: a customer who owns products 1 and 2, one cached rule
`1 → 5`; the single recommendation is that rule. -/
theorem recommend_for_customer_spec_witness :
    cust_lists ([(7, [1, 2])] : List (ℕ × List ℕ)) 7 ≠ [] ∧
    ∃ recs,
      recommend_for_customer ⟨[(7, [1, 2])],
        some ⟨[⟨1, 5, 1, 1, 2⟩], []⟩⟩ 7 5 = some recs ∧
      (∀ r ∈ recs,
          r.antecedent ∈ owned_products [(7, [1, 2])] 7 ∧
          r.consequent ∉ owned_products [(7, [1, 2])] 7) ∧
      (∀ r ∈ recs, r ∈ scored_rules [⟨1, 5, 1, 1, 2⟩]
          (owned_products [(7, [1, 2])] 7)) ∧
      (recs.map Rule.consequent).Nodup ∧
      (∀ r ∈ recs, ∀ p ∈ scored_rules [⟨1, 5, 1, 1, 2⟩]
          (owned_products [(7, [1, 2])] 7),
          p.consequent = r.consequent → p.lift ≤ r.lift) ∧
      recs.Pairwise (fun r1 r2 => r2.lift ≤ r1.lift) ∧
      recs.length ≤ 5 := by
  constructor
  · simp [cust_lists]
  · exact recommend_for_customer_spec ⟨[(7, [1, 2])],
      some ⟨[⟨1, 5, 1, 1, 2⟩], []⟩⟩ 7 5 (by simp [cust_lists])
